import Mathlib

/-!
# Verification of the tic-tac-toe core (`src/main.cpp`)

Shallow embedding of the game-logic core of the repository: the `Board`
model, the minimax `AI`, and the `Game` session state machine.  The C++
source mutates a `std::array<Cell, 9>` in place; here every operation is
a pure function from the old state to the new state.  C++ `int`
coordinates are embedded as `Int`; the unchecked `cells[r*SIZE+c]` array
accesses of the source are embedded as `Option`-valued operations where
`none` marks an access outside the 9-cell array (undefined behaviour in
the C++); accesses inside the array are modelled exactly, including the
aliasing where out-of-range `(r, c)` pairs whose flattened index lands
inside the array silently target a different cell.
-/

namespace TTT

/-- `enum class Cell { Empty, X, O }`. -/
inductive Cell where
  | Empty
  | X
  | O
deriving DecidableEq

/-- `class Board`: a fixed 3×3 grid stored row-major in a 9-slot array. -/
structure Board where
  cells : Fin 9 → Cell

instance : DecidableEq Board := fun a b =>
  match a, b with
  | ⟨ca⟩, ⟨cb⟩ =>
    if h : ca = cb then Decidable.isTrue (by rw [h]) else Decidable.isFalse (by
      intro hc; cases hc; exact h rfl)

/-- `Board()` — the constructor fills every cell with `Empty`. -/
def Board.init : Board := ⟨fun _ => Cell.Empty⟩

/-- Builds a board from a row-major list of cells (a convenience for
stating concrete scenarios; positions past the end stay `Empty`). -/
def Board.ofList (l : List Cell) : Board :=
  ⟨fun i => l.getD i.val Cell.Empty⟩

/-- `Board::makeMove(int r, int c, Cell player)`: computes
`idx = r*SIZE + c` and, with no bounds check, tests `cells[idx]`.
If the flattened index falls outside the 9-cell array the C++ access is
out of bounds (undefined behaviour), embedded as `none`.  Inside the
array: if the targeted slot is `Empty` it is overwritten with `player`
and the call returns `true`; otherwise the board is unchanged and the
call returns `false`. -/
def Board.makeMove (b : Board) (r c : Int) (player : Cell) :
    Option (Board × Bool) :=
  let idx := r * 3 + c
  if h : 0 ≤ idx ∧ idx < 9 then
    let i : Fin 9 := ⟨idx.toNat, by omega⟩
    if b.cells i = Cell.Empty then
      some (⟨Function.update b.cells i player⟩, true)
    else
      some (b, false)
  else
    none

/-- `Board::undoMove(int r, int c)`: unconditionally writes
`Cell::Empty` into `cells[r*SIZE+c]`, again with no bounds check
(`none` embeds the out-of-array write). -/
def Board.undoMove (b : Board) (r c : Int) : Option Board :=
  let idx := r * 3 + c
  if h : 0 ≤ idx ∧ idx < 9 then
    some ⟨Function.update b.cells ⟨idx.toNat, by omega⟩ Cell.Empty⟩
  else
    none

/-- `Board::get(int r, int c)`: the unchecked read `cells[r*SIZE+c]`. -/
def Board.get (b : Board) (r c : Int) : Option Cell :=
  let idx := r * 3 + c
  if h : 0 ≤ idx ∧ idx < 9 then
    some (b.cells ⟨idx.toNat, by omega⟩)
  else
    none

/-- The flattened row-major index of an in-range square. -/
def idx9 (r c : Fin 3) : Fin 9 :=
  ⟨r.val * 3 + c.val, by have hr := r.isLt; have hc := c.isLt; omega⟩

/-- `Board::availableMoves()`: scans rows then columns (row-major) and
collects the coordinates of every `Empty` cell. -/
def Board.availableMoves (b : Board) : List (Nat × Nat) :=
  (List.finRange 3).flatMap fun r =>
    (List.finRange 3).filterMap fun c =>
      if b.cells (idx9 r c) = Cell.Empty then some (r.val, c.val) else none

/-- `Board::isFull()`: true iff no cell is `Empty`. -/
def Board.isFull (b : Board) : Bool :=
  (List.finRange 9).all fun i => decide (b.cells i ≠ Cell.Empty)

/-- `Board::checkWinner()`: the three rows, then the three columns, then
the two diagonals, each compared exactly as in the source (the constant
loop bounds are unrolled).  The first complete non-`Empty` line decides
the result. -/
def Board.checkWinner (b : Board) : Option Cell :=
  if b.cells 0 ≠ Cell.Empty ∧ b.cells 0 = b.cells 1 ∧ b.cells 0 = b.cells 2 then
    some (b.cells 0)
  else if b.cells 3 ≠ Cell.Empty ∧ b.cells 3 = b.cells 4 ∧ b.cells 3 = b.cells 5 then
    some (b.cells 3)
  else if b.cells 6 ≠ Cell.Empty ∧ b.cells 6 = b.cells 7 ∧ b.cells 6 = b.cells 8 then
    some (b.cells 6)
  else if b.cells 0 ≠ Cell.Empty ∧ b.cells 0 = b.cells 3 ∧ b.cells 0 = b.cells 6 then
    some (b.cells 0)
  else if b.cells 1 ≠ Cell.Empty ∧ b.cells 1 = b.cells 4 ∧ b.cells 1 = b.cells 7 then
    some (b.cells 1)
  else if b.cells 2 ≠ Cell.Empty ∧ b.cells 2 = b.cells 5 ∧ b.cells 2 = b.cells 8 then
    some (b.cells 2)
  else if b.cells 0 ≠ Cell.Empty ∧ b.cells 0 = b.cells 4 ∧ b.cells 0 = b.cells 8 then
    some (b.cells 0)
  else if b.cells 2 ≠ Cell.Empty ∧ b.cells 2 = b.cells 4 ∧ b.cells 2 = b.cells 6 then
    some (b.cells 2)
  else
    none

/-- `Board::reset()`: fills every cell with `Empty`. -/
def Board.reset (_ : Board) : Board := ⟨fun _ => Cell.Empty⟩

/-- The board with `p` placed on the in-range square `(m.1, m.2)`.
`availableMoves` only ever produces in-range squares; for an
out-of-range square (flattened index ≥ 9, never produced there) the
board is returned unchanged. -/
def Board.place (b : Board) (m : Nat × Nat) (p : Cell) : Board :=
  if h : m.1 * 3 + m.2 < 9 then
    ⟨Function.update b.cells ⟨m.1 * 3 + m.2, h⟩ p⟩
  else
    b

/-- The eight winning lines, in the scan order of `checkWinner`:
rows, then columns, then the two diagonals. -/
def lines : List (Fin 9 × Fin 9 × Fin 9) :=
  [(0, 1, 2), (3, 4, 5), (6, 7, 8),
   (0, 3, 6), (1, 4, 7), (2, 5, 8),
   (0, 4, 8), (2, 4, 6)]

/-- The board has a complete line of `p`'s marks. -/
def Board.HasLine (b : Board) (p : Cell) : Prop :=
  ∃ l ∈ lines, b.cells l.1 = p ∧ b.cells l.2.1 = p ∧ b.cells l.2.2 = p

instance (b : Board) (p : Cell) : Decidable (b.HasLine p) := by
  unfold Board.HasLine; infer_instance

/-- The occupant of line `l` when the line is complete, as tested by one
step of `checkWinner`'s scan. -/
def lineOwner (b : Board) (l : Fin 9 × Fin 9 × Fin 9) : Option Cell :=
  if b.cells l.1 ≠ Cell.Empty ∧ b.cells l.1 = b.cells l.2.1 ∧ b.cells l.1 = b.cells l.2.2 then
    some (b.cells l.1)
  else
    none

/-- Number of `Empty` cells on the board. -/
def emptyCount (b : Board) : Nat :=
  (Finset.univ.filter fun i => b.cells i = Cell.Empty).card

/-- `AI::scoreForWinner(Cell winner)`. -/
def scoreForWinner (ai human winner : Cell) : Int :=
  if winner = ai then 10 else if winner = human then -10 else 0

/-- `AI::minimax(Board &board, int depth, bool isMaximizing)`.

The C++ recursion terminates because each recursive call is made on a
board with one more occupied cell; the embedding makes this explicit
with a `fuel` argument that bounds the recursion depth.  Any
`fuel ≥ emptyCount b` yields the value the C++ computes
(`minimaxAux_fuel_depth_irrel` below); the wrapper `AI.minimax` passes
`9 ≥ emptyCount b`.  The `| none => best` arms are unreachable: every
move produced by `availableMoves` is in range, so `makeMove` returns
`some`.  Undoing a move is implicit: the fold continues with the
unmodified board `b`, which is exactly the board the C++ loop sees
after `undoMove` restores the cell it had just marked. -/
def minimaxAux (ai human : Cell) (fuel : Nat) (b : Board) (depth : Nat)
    (isMaximizing : Bool) : Int :=
  let winner := b.checkWinner
  if h : winner.isSome then scoreForWinner ai human (winner.get h)
  else if b.isFull then 0
  else
    match fuel with
    | 0 => 0
    | f + 1 =>
      if isMaximizing then
        b.availableMoves.foldl (fun best m =>
          match b.makeMove (m.1 : Int) (m.2 : Int) ai with
          | some (b', _) => max best (minimaxAux ai human f b' (depth + 1) false)
          | none => best) (-2147483648)
      else
        b.availableMoves.foldl (fun best m =>
          match b.makeMove (m.1 : Int) (m.2 : Int) human with
          | some (b', _) => min best (minimaxAux ai human f b' (depth + 1) true)
          | none => best) 2147483647

/-- `class AI`: the two fields set by the constructor
`AI(Cell aiPlayer, Cell humanPlayer)`. -/
structure AI where
  ai : Cell
  human : Cell

/-- The `AI::minimax` entry point (9 units of fuel always suffice on a
9-cell board). -/
def AI.minimax (a : AI) (b : Board) (depth : Nat) (isMaximizing : Bool) : Int :=
  minimaxAux a.ai a.human 9 b depth isMaximizing

/-- `AI::findBestMove(Board board)`: scans `availableMoves` keeping the
first move whose score strictly exceeds the best so far, starting from
`INT_MIN` and the sentinel move `(-1, -1)`. -/
def AI.findBestMove (a : AI) (b : Board) : Int × Int :=
  (b.availableMoves.foldl (fun st m =>
      match b.makeMove (m.1 : Int) (m.2 : Int) a.ai with
      | some (b', _) =>
        let score := minimaxAux a.ai a.human 9 b' 0 false
        if score > st.1 then (score, ((m.1 : Int), (m.2 : Int))) else st
      | none => st)
    ((-2147483648 : Int), ((-1 : Int), (-1 : Int)))).2

/-- The minimax score `findBestMove` assigns to playing `m`: the score
of the position after the AI's mark lands on `m`, evaluated from the
opponent's (minimizing) ply. -/
def moveScore (a : AI) (b : Board) (m : Nat × Nat) : Int :=
  minimaxAux a.ai a.human 9 (b.place m a.ai) 0 false

/-- `Game::Mode`. -/
inductive Mode where
  | HumanVsHuman
  | HumanVsAI
deriving DecidableEq

/-- `class Game`: the session state (the `AI` member is the constant
`AI(Cell::O, Cell::X)` and carries no state of its own). -/
structure Game where
  board : Board
  current : Cell
  mode : Mode
  over : Bool
  winnerOpt : Option Cell
  scoreX : Int
  scoreO : Int
deriving DecidableEq

/-- `Game()`: empty board, `X` to move, `HumanVsAI`, not over, no
winner, both scores 0. -/
def Game.init : Game :=
  { board := Board.init, current := Cell.X, mode := Mode.HumanVsAI,
    over := false, winnerOpt := none, scoreX := 0, scoreO := 0 }

/-- `Game::restart()`. -/
def Game.restart (g : Game) : Game :=
  { g with board := g.board.reset, current := Cell.X,
           over := false, winnerOpt := none }

/-- `Game::switchTurn()`. -/
def switchTurn (c : Cell) : Cell :=
  if c = Cell.X then Cell.O else Cell.X

/-- `Game::checkGameState()`: if a winner exists, the game is over, the
winner is stored and that player's counter is incremented (the source
tests `*w == Cell::X` and otherwise increments `scoreO`); else if the
board is full the game is over with no winner; else nothing changes. -/
def Game.checkGameState (g : Game) : Game :=
  match g.board.checkWinner with
  | some w =>
    { g with over := true, winnerOpt := some w,
             scoreX := if w = Cell.X then g.scoreX + 1 else g.scoreX,
             scoreO := if w = Cell.X then g.scoreO else g.scoreO + 1 }
  | none =>
    if g.board.isFull then { g with over := true, winnerOpt := none } else g

/-- `Game::playMove(int r, int c)`: rejected (returning `false`, state
untouched) when the game is over or when the unchecked read
`board.get(r,c)` finds a non-`Empty` cell; otherwise the current
player's mark is placed, the terminal condition is evaluated and, if
the game is not over, the turn flips.  `none` embeds the out-of-array
access `get` performs when `r*3+c` falls outside `[0,9)`. -/
def Game.playMove (g : Game) (r c : Int) : Option (Game × Bool) :=
  if g.over then some (g, false)
  else
    match g.board.get r c with
    | none => none
    | some cell =>
      if cell ≠ Cell.Empty then some (g, false)
      else
        match g.board.makeMove r c g.current with
        | none => none
        | some (b1, _) =>
          let g1 := Game.checkGameState { g with board := b1 }
          some (if g1.over then g1 else { g1 with current := switchTurn g1.current }, true)

/-- `Game::aiMove()`: when the game is not over, asks
`AI(Cell::O, Cell::X)` for a best move and, unless the sentinel
`r = -1` came back, places `Cell::O` there (whatever `current` is),
re-evaluates the terminal condition and flips the turn if the game is
still running. -/
def Game.aiMove (g : Game) : Option Game :=
  if g.over then some g
  else
    let rc := AI.findBestMove ⟨Cell.O, Cell.X⟩ g.board
    if 0 ≤ rc.1 then
      match g.board.makeMove rc.1 rc.2 Cell.O with
      | none => none
      | some (b1, _) =>
        let g1 := Game.checkGameState { g with board := b1 }
        some (if g1.over then g1 else { g1 with current := switchTurn g1.current })
    else
      some g

/-- `Game::setMode(Mode m)`: sets the flag and nothing else. -/
def Game.setMode (g : Game) (m : Mode) : Game :=
  { g with mode := m }

/-- `GUI::toggleMode()`: flips the mode via `setMode`, then calls
`game.restart()`. -/
def toggleMode (g : Game) : Game :=
  (if g.mode = Mode.HumanVsHuman then g.setMode Mode.HumanVsAI
   else g.setMode Mode.HumanVsHuman).restart

/-- The session states reachable from the freshly constructed `Game`
by `playMove` calls with in-range arguments, `aiMove` calls, and
`restart` calls. -/
inductive Reachable : Game → Prop where
  | init : Reachable Game.init
  | play (g g' : Game) (ok : Bool) (r c : Int) :
      Reachable g → 0 ≤ r → r < 3 → 0 ≤ c → c < 3 →
      g.playMove r c = some (g', ok) → Reachable g'
  | ai (g g' : Game) : Reachable g → g.aiMove = some g' → Reachable g'
  | restart (g : Game) : Reachable g → Reachable g.restart

/-! ## Concrete positions used in scenarios, counterexamples and witnesses -/

/-- The scenario board of the spec:
`[X,X,Empty, O,O,Empty, Empty,Empty,Empty]`. -/
def bC3 : Board := Board.ofList
  [Cell.X, Cell.X, Cell.Empty, Cell.O, Cell.O, Cell.Empty,
   Cell.Empty, Cell.Empty, Cell.Empty]

/-- An illegal position in which both players own a complete line
(`X` the top row, `O` the middle row). -/
def bothLines : Board := Board.ofList
  [Cell.X, Cell.X, Cell.X, Cell.O, Cell.O, Cell.O,
   Cell.Empty, Cell.Empty, Cell.Empty]

/-- A position where `O` owns the top row and `X` has no line. -/
def bWin : Board := Board.ofList
  [Cell.O, Cell.O, Cell.O, Cell.X, Cell.X, Cell.Empty,
   Cell.Empty, Cell.Empty, Cell.Empty]

/-- A full drawn board (no complete line anywhere). -/
def bFull : Board := Board.ofList
  [Cell.X, Cell.O, Cell.X, Cell.X, Cell.O, Cell.X,
   Cell.O, Cell.X, Cell.O]

/-- A non-terminal mid-game board with three empty cells. -/
def bMid : Board := Board.ofList
  [Cell.X, Cell.O, Cell.X, Cell.O, Cell.X, Cell.O,
   Cell.Empty, Cell.Empty, Cell.Empty]

/-- A running session at `bMid` where it is `X`'s (the human's) turn. -/
def gMid : Game := { Game.init with board := bMid }

/-- A session with a single mark on the board. -/
def gOneMark : Game := { Game.init with board := Board.init.place (0, 0) Cell.X }

/-- A session whose terminal flag is set. -/
def gOver : Game := { Game.init with over := true }

/-- The shared tail of a successful `playMove`/`aiMove`: the mark `p`
is written at square `i`, the terminal condition is evaluated
(`checkGameState`) and, if the game is still running, the turn flips. -/
def applyMark (g : Game) (i : Fin 9) (p : Cell) : Game :=
  let g1 := Game.checkGameState { g with board := ⟨Function.update g.board.cells i p⟩ }
  if g1.over then g1 else { g1 with current := switchTurn g1.current }

/-- The session invariant of claim C10: while the terminal flag is
down, the board has no complete line, is not full, and no winner is
stored. -/
def GameInv (g : Game) : Prop :=
  g.over = false →
    g.board.checkWinner = none ∧ g.board.isFull = false ∧ g.winnerOpt = none

/-! ## Basic board lemmas -/

theorem isFull_iff {b : Board} : b.isFull = true ↔ ∀ i, b.cells i ≠ Cell.Empty := by
  simp [Board.isFull, List.all_eq_true, List.mem_finRange]

theorem isFull_false_iff {b : Board} : b.isFull = false ↔ ∃ i, b.cells i = Cell.Empty := by
  rw [← Bool.not_eq_true, isFull_iff]
  push_neg
  rfl

theorem mem_availableMoves {b : Board} {m : Nat × Nat} :
    m ∈ b.availableMoves ↔
      ∃ (r : Fin 3) (c : Fin 3), m = (r.val, c.val) ∧ b.cells (idx9 r c) = Cell.Empty := by
  simp only [Board.availableMoves, List.mem_flatMap, List.mem_filterMap, List.mem_finRange,
    true_and, Option.ite_none_right_eq_some, Option.some.injEq]
  constructor
  · rintro ⟨r, c, hE, rfl⟩
    exact ⟨r, c, rfl, hE⟩
  · rintro ⟨r, c, rfl, hE⟩
    exact ⟨r, c, hE, rfl⟩

/-- `makeMove` at in-range `Nat` coordinates, with the flattened index
spelt out. -/
theorem makeMove_nat (b : Board) (r c : Nat) (p : Cell) (h9 : r * 3 + c < 9) :
    b.makeMove (r : Int) (c : Int) p =
      if b.cells ⟨r * 3 + c, h9⟩ = Cell.Empty
      then some (⟨Function.update b.cells ⟨r * 3 + c, h9⟩ p⟩, true)
      else some (b, false) := by
  have hcond : (0 : Int) ≤ (r : Int) * 3 + (c : Int) ∧ (r : Int) * 3 + (c : Int) < 9 := by
    constructor <;> omega
  simp only [Board.makeMove, dif_pos hcond]
  rfl

theorem get_nat (b : Board) (r c : Nat) (h9 : r * 3 + c < 9) :
    b.get (r : Int) (c : Int) = some (b.cells ⟨r * 3 + c, h9⟩) := by
  have hcond : (0 : Int) ≤ (r : Int) * 3 + (c : Int) ∧ (r : Int) * 3 + (c : Int) < 9 := by
    constructor <;> omega
  simp only [Board.get, dif_pos hcond]
  rfl

theorem undoMove_nat (b : Board) (r c : Nat) (h9 : r * 3 + c < 9) :
    b.undoMove (r : Int) (c : Int) =
      some ⟨Function.update b.cells ⟨r * 3 + c, h9⟩ Cell.Empty⟩ := by
  have hcond : (0 : Int) ≤ (r : Int) * 3 + (c : Int) ∧ (r : Int) * 3 + (c : Int) < 9 := by
    constructor <;> omega
  simp only [Board.undoMove, dif_pos hcond]
  rfl

theorem place_eq (b : Board) (m : Nat × Nat) (p : Cell) (h9 : m.1 * 3 + m.2 < 9) :
    b.place m p = ⟨Function.update b.cells ⟨m.1 * 3 + m.2, h9⟩ p⟩ := by
  unfold Board.place
  rw [dif_pos h9]

theorem makeMove_of_mem {b : Board} {m : Nat × Nat} (h : m ∈ b.availableMoves) (p : Cell) :
    b.makeMove (m.1 : Int) (m.2 : Int) p = some (b.place m p, true) := by
  obtain ⟨r, c, rfl, hE⟩ := mem_availableMoves.mp h
  have hr := r.isLt
  have hc := c.isLt
  have h9 : r.val * 3 + c.val < 9 := by omega
  rw [makeMove_nat b r.val c.val p h9, place_eq b _ p h9]
  have hfin : (⟨r.val * 3 + c.val, h9⟩ : Fin 9) = idx9 r c := rfl
  rw [hfin, if_pos hE]

theorem cell_empty_of_mem {b : Board} {m : Nat × Nat} (h : m ∈ b.availableMoves) :
    ∃ h9 : m.1 * 3 + m.2 < 9, b.cells ⟨m.1 * 3 + m.2, h9⟩ = Cell.Empty := by
  obtain ⟨r, c, rfl, hE⟩ := mem_availableMoves.mp h
  have hr := r.isLt
  have hc := c.isLt
  exact ⟨by omega, hE⟩

theorem availableMoves_ne_nil {b : Board} (h : b.isFull = false) :
    b.availableMoves ≠ [] := by
  obtain ⟨i, hi⟩ := isFull_false_iff.mp h
  have hlt := i.isLt
  have hr : i.val / 3 < 3 := by omega
  have hc : i.val % 3 < 3 := by omega
  have hidx : idx9 ⟨i.val / 3, hr⟩ ⟨i.val % 3, hc⟩ = i := by
    apply Fin.ext
    simp only [idx9]
    omega
  exact List.ne_nil_of_mem (mem_availableMoves.mpr ⟨⟨i.val / 3, hr⟩, ⟨i.val % 3, hc⟩, rfl,
    by rw [hidx]; exact hi⟩)

theorem availableMoves_eq_nil {b : Board} (h : ∀ i, b.cells i ≠ Cell.Empty) :
    b.availableMoves = [] := by
  rw [List.eq_nil_iff_forall_not_mem]
  intro m hm
  obtain ⟨r, c, _, hE⟩ := mem_availableMoves.mp hm
  exact h _ hE

/-! ## Empty-cell counting -/

theorem emptyCount_le (b : Board) : emptyCount b ≤ 9 := by
  calc (Finset.univ.filter fun i => b.cells i = Cell.Empty).card
      ≤ (Finset.univ : Finset (Fin 9)).card := Finset.card_filter_le _ _
    _ = 9 := by simp

theorem emptyCount_pos (b : Board) (h : b.isFull = false) : 0 < emptyCount b := by
  obtain ⟨i, hi⟩ := isFull_false_iff.mp h
  apply Finset.card_pos.mpr
  exact ⟨i, Finset.mem_filter.mpr ⟨Finset.mem_univ i, hi⟩⟩

theorem emptyCount_eq_zero_of_full (b : Board) (h : b.isFull = true) :
    emptyCount b = 0 := by
  apply Finset.card_eq_zero.mpr
  apply Finset.filter_false_of_mem
  intro i _
  exact isFull_iff.mp h i

theorem emptyCount_update (b : Board) (i : Fin 9) (p : Cell)
    (hE : b.cells i = Cell.Empty) (hp : p ≠ Cell.Empty) :
    emptyCount ⟨Function.update b.cells i p⟩ + 1 = emptyCount b := by
  unfold emptyCount
  have hset : (Finset.univ.filter fun j => Function.update b.cells i p j = Cell.Empty)
      = (Finset.univ.filter fun j => b.cells j = Cell.Empty).erase i := by
    ext j
    simp only [Finset.mem_filter, Finset.mem_univ, true_and, Finset.mem_erase]
    rcases eq_or_ne j i with rfl | hji
    · simp [Function.update_same, hp]
    · simp [Function.update_noteq hji, hji]
  rw [hset, Finset.card_erase_of_mem (Finset.mem_filter.mpr ⟨Finset.mem_univ i, hE⟩)]
  have hpos : 0 < (Finset.univ.filter fun j => b.cells j = Cell.Empty).card :=
    Finset.card_pos.mpr ⟨i, Finset.mem_filter.mpr ⟨Finset.mem_univ i, hE⟩⟩
  omega

theorem emptyCount_place {b : Board} {m : Nat × Nat} (h : m ∈ b.availableMoves)
    {p : Cell} (hp : p ≠ Cell.Empty) :
    emptyCount (b.place m p) + 1 = emptyCount b := by
  obtain ⟨h9, hE⟩ := cell_empty_of_mem h
  rw [place_eq b m p h9]
  exact emptyCount_update b _ p hE hp

/-! ## `checkWinner` and complete lines -/

set_option maxHeartbeats 1000000 in
theorem checkWinner_eq_findSome (b : Board) :
    b.checkWinner = lines.findSome? (lineOwner b) := by
  simp only [Board.checkWinner, lines, lineOwner, List.findSome?_cons, List.findSome?_nil]
  split_ifs <;> rfl

theorem hasLine_of_checkWinner {b : Board} {p : Cell} (h : b.checkWinner = some p) :
    p ≠ Cell.Empty ∧ b.HasLine p := by
  rw [checkWinner_eq_findSome] at h
  obtain ⟨l, hl, hown⟩ := List.exists_of_findSome?_eq_some h
  unfold lineOwner at hown
  split_ifs at hown with hcond
  obtain ⟨hne, h1, h2⟩ := hcond
  obtain rfl : b.cells l.1 = p := Option.some_inj.mp hown
  exact ⟨hne, ⟨l, hl, rfl, h1.symm, h2.symm⟩⟩

theorem checkWinner_eq_none_iff {b : Board} :
    b.checkWinner = none ↔ ∀ p, p ≠ Cell.Empty → ¬ b.HasLine p := by
  rw [checkWinner_eq_findSome, List.findSome?_eq_none_iff]
  constructor
  · rintro hall p hp ⟨l, hl, h1, h2, h3⟩
    have := hall l hl
    unfold lineOwner at this
    rw [if_pos ⟨by rw [h1]; exact hp, by rw [h1, h2], by rw [h1, h3]⟩] at this
    cases this
  · intro hnone l hl
    unfold lineOwner
    split_ifs with hcond
    · obtain ⟨hne, h1, h2⟩ := hcond
      exact absurd ⟨l, hl, rfl, h1.symm, h2.symm⟩ (hnone _ hne)
    · rfl

theorem checkWinner_of_unique_line {b : Board} {p : Cell} (hp : p ≠ Cell.Empty)
    (hline : b.HasLine p) (huniq : ∀ q, q ≠ Cell.Empty → q ≠ p → ¬ b.HasLine q) :
    b.checkWinner = some p := by
  rcases hw : b.checkWinner with _ | w
  · exact absurd hline (checkWinner_eq_none_iff.mp hw p hp)
  · obtain ⟨hwne, hwline⟩ := hasLine_of_checkWinner hw
    rcases eq_or_ne w p with rfl | hne
    · rfl
    · exact absurd hwline (huniq w hwne hne)

/-! ## Fold combinators used by the search -/

theorem foldl_congr_mem {α β : Type} {f g : β → α → β} :
    ∀ {l : List α}, (∀ s, ∀ a ∈ l, f s a = g s a) → ∀ s, l.foldl f s = l.foldl g s := by
  intro l
  induction l with
  | nil => intro _ s; rfl
  | cons a t ih =>
    intro h s
    simp only [List.foldl_cons]
    rw [h s a (List.mem_cons_self a t)]
    exact ih (fun s' x hx => h s' x (List.mem_cons_of_mem _ hx)) _

theorem le_foldl_maxf {α : Type} (f : α → Int) :
    ∀ (l : List α) (s : Int), s ≤ l.foldl (fun best a => max best (f a)) s := by
  intro l
  induction l with
  | nil => intro s; exact le_refl s
  | cons a t ih =>
    intro s
    simp only [List.foldl_cons]
    exact le_trans (le_max_left s (f a)) (ih _)

theorem foldl_maxf_ge {α : Type} (f : α → Int) :
    ∀ (l : List α) (s : Int), ∀ a ∈ l, f a ≤ l.foldl (fun best x => max best (f x)) s := by
  intro l
  induction l with
  | nil => intro s a ha; cases ha
  | cons a t ih =>
    intro s x hx
    simp only [List.foldl_cons]
    rcases List.mem_cons.mp hx with rfl | hx
    · exact le_trans (le_max_right s (f x)) (le_foldl_maxf f t _)
    · exact ih _ x hx

theorem foldl_maxf_cases {α : Type} (f : α → Int) :
    ∀ (l : List α) (s : Int),
      l.foldl (fun best x => max best (f x)) s = s ∨
        ∃ a ∈ l, l.foldl (fun best x => max best (f x)) s = f a := by
  intro l
  induction l with
  | nil => intro s; left; rfl
  | cons a t ih =>
    intro s
    simp only [List.foldl_cons]
    rcases ih (max s (f a)) with h | ⟨x, hx, hfx⟩
    · rcases le_total s (f a) with hle | hle
      · right
        exact ⟨a, List.mem_cons_self a t, by rw [h, max_eq_right hle]⟩
      · left
        rw [h, max_eq_left hle]
    · right
      exact ⟨x, List.mem_cons_of_mem _ hx, hfx⟩

theorem foldl_minf_le {α : Type} (f : α → Int) :
    ∀ (l : List α) (s : Int), l.foldl (fun best a => min best (f a)) s ≤ s := by
  intro l
  induction l with
  | nil => intro s; exact le_refl s
  | cons a t ih =>
    intro s
    simp only [List.foldl_cons]
    exact le_trans (ih _) (min_le_left s (f a))

theorem foldl_minf_le_of_mem {α : Type} (f : α → Int) :
    ∀ (l : List α) (s : Int), ∀ a ∈ l, l.foldl (fun best x => min best (f x)) s ≤ f a := by
  intro l
  induction l with
  | nil => intro s a ha; cases ha
  | cons a t ih =>
    intro s x hx
    simp only [List.foldl_cons]
    rcases List.mem_cons.mp hx with rfl | hx
    · exact le_trans (foldl_minf_le f t _) (min_le_right s (f x))
    · exact ih _ x hx

theorem foldl_minf_cases {α : Type} (f : α → Int) :
    ∀ (l : List α) (s : Int),
      l.foldl (fun best x => min best (f x)) s = s ∨
        ∃ a ∈ l, l.foldl (fun best x => min best (f x)) s = f a := by
  intro l
  induction l with
  | nil => intro s; left; rfl
  | cons a t ih =>
    intro s
    simp only [List.foldl_cons]
    rcases ih (min s (f a)) with h | ⟨x, hx, hfx⟩
    · rcases le_total s (f a) with hle | hle
      · left
        rw [h, min_eq_left hle]
      · right
        exact ⟨a, List.mem_cons_self a t, by rw [h, min_eq_right hle]⟩
    · right
      exact ⟨x, List.mem_cons_of_mem _ hx, hfx⟩

/-- Folding the "keep the first strict improvement" step of
`findBestMove` either keeps the initial accumulator (when no element
beats it) or lands on the first index attaining the maximum. -/
theorem foldl_pickBest_aux {α γ : Type} (f : α → Int) (g : α → γ) :
    ∀ (l : List α) (s : Int) (v : γ),
      (l.foldl (fun st a => if f a > st.1 then (f a, g a) else st) (s, v) = (s, v) ∧
        ∀ a ∈ l, f a ≤ s) ∨
      (∃ k : Fin l.length,
        l.foldl (fun st a => if f a > st.1 then (f a, g a) else st) (s, v)
          = (f (l.get k), g (l.get k)) ∧
        s < f (l.get k) ∧
        (∀ j : Fin l.length, f (l.get j) ≤ f (l.get k)) ∧
        (∀ j : Fin l.length, j.val < k.val → f (l.get j) < f (l.get k))) := by
  intro l
  induction l with
  | nil =>
    intro s v
    left
    exact ⟨rfl, fun a ha => absurd ha (List.not_mem_nil a)⟩
  | cons a t ih =>
    intro s v
    simp only [List.foldl_cons]
    by_cases hgt : f a > s
    · rw [if_pos hgt]
      rcases ih (f a) (g a) with ⟨heq, hall⟩ | ⟨k, heq, hks, hall, hfirst⟩
      · right
        refine ⟨⟨0, Nat.succ_pos _⟩, by rw [heq]; rfl, hgt, ?_, ?_⟩
        · intro j
          induction j using Fin.cases with
          | zero => exact le_refl _
          | succ i => exact hall (t.get i) (List.get_mem t i.1 i.2)
        · intro j hj
          exact absurd hj (Nat.not_lt_zero _)
      · right
        refine ⟨k.succ, heq, lt_trans hgt hks, ?_, ?_⟩
        · intro j
          induction j using Fin.cases with
          | zero => exact le_of_lt hks
          | succ i => exact hall i
        · intro j hj
          induction j using Fin.cases with
          | zero => exact hks
          | succ i => exact hfirst i (Nat.lt_of_succ_lt_succ hj)
    · rw [if_neg hgt]
      rcases ih s v with ⟨heq, hall⟩ | ⟨k, heq, hks, hall, hfirst⟩
      · left
        refine ⟨heq, ?_⟩
        intro x hx
        rcases List.mem_cons.mp hx with rfl | hx
        · exact le_of_not_lt hgt
        · exact hall x hx
      · right
        refine ⟨k.succ, heq, hks, ?_, ?_⟩
        · intro j
          induction j using Fin.cases with
          | zero => exact le_trans (le_of_not_lt hgt) (le_of_lt hks)
          | succ i => exact hall i
        · intro j hj
          induction j using Fin.cases with
          | zero => exact lt_of_le_of_lt (le_of_not_lt hgt) hks
          | succ i => exact hfirst i (Nat.lt_of_succ_lt_succ hj)

theorem foldl_pickBest_argmax {α γ : Type} (f : α → Int) (g : α → γ) (l : List α)
    (s : Int) (v : γ) (hne : l ≠ []) (hgt : ∀ a ∈ l, s < f a) :
    ∃ k : Fin l.length,
      l.foldl (fun st a => if f a > st.1 then (f a, g a) else st) (s, v)
        = (f (l.get k), g (l.get k)) ∧
      (∀ j : Fin l.length, f (l.get j) ≤ f (l.get k)) ∧
      (∀ j : Fin l.length, j.val < k.val → f (l.get j) < f (l.get k)) := by
  rcases foldl_pickBest_aux f g l s v with ⟨_, hall⟩ | ⟨k, heq, _, hall, hfirst⟩
  · obtain ⟨a, ha⟩ := List.exists_mem_of_ne_nil l hne
    exact absurd (hall a ha) (not_le.mpr (hgt a ha))
  · exact ⟨k, heq, hall, hfirst⟩

/-! ## Unfolding lemmas for `minimaxAux` -/

theorem minimaxAux_terminal_win (ai human : Cell) (fuel : Nat) (b : Board) (d : Nat)
    (mx : Bool) {w : Cell} (hw : b.checkWinner = some w) :
    minimaxAux ai human fuel b d mx = scoreForWinner ai human w := by
  unfold minimaxAux
  simp [hw]

theorem minimaxAux_terminal_full (ai human : Cell) (fuel : Nat) (b : Board) (d : Nat)
    (mx : Bool) (hw : b.checkWinner = none) (hf : b.isFull = true) :
    minimaxAux ai human fuel b d mx = 0 := by
  unfold minimaxAux
  simp [hw, hf]

theorem minimaxAux_zero (ai human : Cell) (b : Board) (d : Nat) (mx : Bool)
    (hw : b.checkWinner = none) (hf : b.isFull = false) :
    minimaxAux ai human 0 b d mx = 0 := by
  unfold minimaxAux
  simp [hw, hf]

theorem minimaxAux_succ_max (ai human : Cell) (f : Nat) (b : Board) (d : Nat)
    (hw : b.checkWinner = none) (hf : b.isFull = false) :
    minimaxAux ai human (f + 1) b d true =
      b.availableMoves.foldl
        (fun best m => max best (minimaxAux ai human f (b.place m ai) (d + 1) false))
        (-2147483648) := by
  have h1 : minimaxAux ai human (f + 1) b d true =
      b.availableMoves.foldl (fun best m =>
          match b.makeMove (m.1 : Int) (m.2 : Int) ai with
          | some (b', _) => max best (minimaxAux ai human f b' (d + 1) false)
          | none => best) (-2147483648) := by
    conv_lhs => rw [minimaxAux]
    simp [hw, hf]
  rw [h1]
  apply foldl_congr_mem
  intro s m hm
  rw [makeMove_of_mem hm]

theorem minimaxAux_succ_min (ai human : Cell) (f : Nat) (b : Board) (d : Nat)
    (hw : b.checkWinner = none) (hf : b.isFull = false) :
    minimaxAux ai human (f + 1) b d false =
      b.availableMoves.foldl
        (fun best m => min best (minimaxAux ai human f (b.place m human) (d + 1) true))
        2147483647 := by
  have h1 : minimaxAux ai human (f + 1) b d false =
      b.availableMoves.foldl (fun best m =>
          match b.makeMove (m.1 : Int) (m.2 : Int) human with
          | some (b', _) => min best (minimaxAux ai human f b' (d + 1) true)
          | none => best) 2147483647 := by
    conv_lhs => rw [minimaxAux]
    simp [hw, hf]
  rw [h1]
  apply foldl_congr_mem
  intro s m hm
  rw [makeMove_of_mem hm]

theorem scoreForWinner_range (ai human w : Cell) :
    -10 ≤ scoreForWinner ai human w ∧ scoreForWinner ai human w ≤ 10 := by
  unfold scoreForWinner
  split_ifs <;> norm_num

theorem minimaxAux_range (ai human : Cell) :
    ∀ (fuel : Nat) (b : Board) (d : Nat) (mx : Bool),
      -10 ≤ minimaxAux ai human fuel b d mx ∧ minimaxAux ai human fuel b d mx ≤ 10 := by
  intro fuel
  induction fuel with
  | zero =>
    intro b d mx
    rcases hw : b.checkWinner with _ | w
    · cases hf : b.isFull with
      | true => rw [minimaxAux_terminal_full ai human 0 b d mx hw hf]; norm_num
      | false => rw [minimaxAux_zero ai human b d mx hw hf]; norm_num
    · rw [minimaxAux_terminal_win ai human 0 b d mx hw]
      exact scoreForWinner_range ai human w
  | succ f ih =>
    intro b d mx
    rcases hw : b.checkWinner with _ | w
    · cases hf : b.isFull with
      | true => rw [minimaxAux_terminal_full ai human (f + 1) b d mx hw hf]; norm_num
      | false =>
        obtain ⟨m, hm⟩ := List.exists_mem_of_ne_nil _ (availableMoves_ne_nil hf)
        cases mx with
        | true =>
          rw [minimaxAux_succ_max ai human f b d hw hf]
          set S := fun m => minimaxAux ai human f (b.place m ai) (d + 1) false with hS
          constructor
          · exact le_trans (ih (b.place m ai) (d + 1) false).1
              (foldl_maxf_ge S b.availableMoves (-2147483648) m hm)
          · rcases foldl_maxf_cases S b.availableMoves (-2147483648) with hc | ⟨x, _, hc⟩
            · exfalso
              have h1 := foldl_maxf_ge S b.availableMoves (-2147483648) m hm
              have h2 := (ih (b.place m ai) (d + 1) false).1
              have hSm : S m = minimaxAux ai human f (b.place m ai) (d + 1) false := rfl
              rw [hc] at h1
              rw [hSm] at h1
              omega
            · rw [hc]
              exact (ih (b.place x ai) (d + 1) false).2
        | false =>
          rw [minimaxAux_succ_min ai human f b d hw hf]
          set S := fun m => minimaxAux ai human f (b.place m human) (d + 1) true with hS
          constructor
          · rcases foldl_minf_cases S b.availableMoves 2147483647 with hc | ⟨x, _, hc⟩
            · exfalso
              have h1 := foldl_minf_le_of_mem S b.availableMoves 2147483647 m hm
              have h2 := (ih (b.place m human) (d + 1) true).2
              have hSm : S m = minimaxAux ai human f (b.place m human) (d + 1) true := rfl
              rw [hc] at h1
              rw [hSm] at h1
              omega
            · rw [hc]
              exact (ih (b.place x human) (d + 1) true).1
          · exact le_trans (foldl_minf_le_of_mem S b.availableMoves 2147483647 m hm)
              (ih (b.place m human) (d + 1) true).2
    · rw [minimaxAux_terminal_win ai human (f + 1) b d mx hw]
      exact scoreForWinner_range ai human w

/-- The score `minimaxAux` computes does not depend on the fuel (as
long as it covers the number of empty cells, which bounds the C++
recursion depth) nor on the `depth` argument: the source applies no
depth weighting. -/
theorem minimaxAux_fuel_depth_irrel (ai human : Cell) (hai : ai ≠ Cell.Empty)
    (hhu : human ≠ Cell.Empty) :
    ∀ (f₁ f₂ : Nat) (b : Board) (d₁ d₂ : Nat) (mx : Bool),
      emptyCount b ≤ f₁ → emptyCount b ≤ f₂ →
      minimaxAux ai human f₁ b d₁ mx = minimaxAux ai human f₂ b d₂ mx := by
  intro f₁
  induction f₁ with
  | zero =>
    intro f₂ b d₁ d₂ mx h₁ h₂
    rcases hw : b.checkWinner with _ | w
    · have hf : b.isFull = true := by
        cases hfull : b.isFull with
        | false => exact absurd (emptyCount_pos b hfull) (by omega)
        | true => rfl
      rw [minimaxAux_terminal_full ai human 0 b d₁ mx hw hf,
          minimaxAux_terminal_full ai human f₂ b d₂ mx hw hf]
    · rw [minimaxAux_terminal_win ai human 0 b d₁ mx hw,
          minimaxAux_terminal_win ai human f₂ b d₂ mx hw]
  | succ f ih =>
    intro f₂ b d₁ d₂ mx h₁ h₂
    rcases hw : b.checkWinner with _ | w
    · cases hf : b.isFull with
      | true =>
        rw [minimaxAux_terminal_full ai human (f + 1) b d₁ mx hw hf,
            minimaxAux_terminal_full ai human f₂ b d₂ mx hw hf]
      | false =>
        have hpos := emptyCount_pos b hf
        obtain ⟨f₂', rfl⟩ : ∃ k, f₂ = k + 1 := ⟨f₂ - 1, by omega⟩
        cases mx with
        | true =>
          rw [minimaxAux_succ_max ai human f b d₁ hw hf,
              minimaxAux_succ_max ai human f₂' b d₂ hw hf]
          apply foldl_congr_mem
          intro s m hm
          have hcnt := emptyCount_place hm hai
          rw [ih f₂' (b.place m ai) (d₁ + 1) (d₂ + 1) false (by omega) (by omega)]
        | false =>
          rw [minimaxAux_succ_min ai human f b d₁ hw hf,
              minimaxAux_succ_min ai human f₂' b d₂ hw hf]
          apply foldl_congr_mem
          intro s m hm
          have hcnt := emptyCount_place hm hhu
          rw [ih f₂' (b.place m human) (d₁ + 1) (d₂ + 1) true (by omega) (by omega)]
    · rw [minimaxAux_terminal_win ai human (f + 1) b d₁ mx hw,
          minimaxAux_terminal_win ai human f₂ b d₂ mx hw]

/-! ## Scan order of `availableMoves` -/

/-- The moves produced by `availableMoves` are strictly increasing in
the row-major flattened index: the scan is row-major. -/
theorem availableMoves_sorted (b : Board) :
    b.availableMoves.Pairwise (fun m m' => m.1 * 3 + m.2 < m'.1 * 3 + m'.2) := by
  unfold Board.availableMoves
  rw [List.pairwise_flatMap]
  constructor
  · intro r _
    apply List.Pairwise.filterMap
      (fun c : Fin 3 => if b.cells (idx9 r c) = Cell.Empty then some (r.val, c.val) else none)
    · intro c c' hcc m hm m' hm'
      rw [Option.mem_def, Option.ite_none_right_eq_some, Option.some_inj] at hm hm'
      obtain ⟨-, rfl⟩ := hm
      obtain ⟨-, rfl⟩ := hm'
      have := c.isLt
      have := c'.isLt
      have hlt : c.val < c'.val := hcc
      simp only
      omega
    · exact List.pairwise_lt_finRange 3
  · apply List.Pairwise.imp ?_ (List.pairwise_lt_finRange 3)
    intro r r' hrr
    intro x hx y hy
    simp only [List.mem_filterMap, Option.ite_none_right_eq_some, Option.some_inj] at hx hy
    obtain ⟨c, -, -, rfl⟩ := hx
    obtain ⟨c', -, -, rfl⟩ := hy
    have := c.isLt
    have := c'.isLt
    have hlt : r.val < r'.val := hrr
    simp only
    omega

/-- Claim-facing characterization of `availableMoves` membership: the
in-range squares whose cell is `Empty`. -/
theorem mem_availableMoves_iff (b : Board) (m : Nat × Nat) :
    m ∈ b.availableMoves ↔
      ∃ h : m.1 * 3 + m.2 < 9,
        m.1 < 3 ∧ m.2 < 3 ∧ b.cells ⟨m.1 * 3 + m.2, h⟩ = Cell.Empty := by
  rw [mem_availableMoves]
  constructor
  · rintro ⟨r, c, rfl, hE⟩
    have hr := r.isLt
    have hc := c.isLt
    exact ⟨by omega, hr, hc, hE⟩
  · rintro ⟨h9, hr, hc, hE⟩
    exact ⟨⟨m.1, hr⟩, ⟨m.2, hc⟩, rfl, hE⟩

/-- With only three cell values, a non-`Empty` cell different from one
non-`Empty` player must be the other. -/
theorem cell_eq_of_ne (q ai human : Cell) (hai : ai ≠ Cell.Empty)
    (hhu : human ≠ Cell.Empty) (hd : ai ≠ human)
    (hq : q ≠ Cell.Empty) (hqa : q ≠ ai) : q = human := by
  cases q <;> cases ai <;> cases human <;> simp_all

/-! ## Claim C1 -/

/-- C1 counterexample: on the illegal board where `X` owns the top row
and `O` (the AI of `AI(O, X)`) owns the middle row, the board has a
complete line of the AI's mark, yet `minimax` returns `-10`, not `+10`:
the terminal score follows the first complete line in `checkWinner`'s
scan order, which here is `X`'s row. -/
theorem C1_counterexample :
    bothLines.HasLine Cell.O ∧
    AI.minimax ⟨Cell.O, Cell.X⟩ bothLines 0 true = -10 ∧
    AI.minimax ⟨Cell.O, Cell.X⟩ bothLines 0 true ≠ 10 :=
  ⟨by decide, by decide, by decide⟩

/-- C1 (amended): for distinct non-`Empty` players, `minimax` returns
`+10` on a board with a complete line of the AI's mark and none of the
human's, `-10` in the symmetric case (on illegal boards where both
players own complete lines, the sign instead follows the occupant of
the first complete line in the rows → columns → diagonals scan order),
and `0` on a full board with no complete line; the score is independent
of the `depth` argument; and on a maximizing ply of a non-terminal
board it is the maximum, over all available moves, of the score of the
position with the move applied (the board passed to the recursive call;
the original board is kept for the remaining moves, which is exactly
what apply-then-undo achieves in the C++), evaluated on the minimizing
ply — dually the minimum on a minimizing ply. -/
theorem C1_minimax_spec (a : AI) (hai : a.ai ≠ Cell.Empty)
    (hhu : a.human ≠ Cell.Empty) (hd : a.ai ≠ a.human) :
    (∀ (b : Board) (d : Nat) (mx : Bool),
        b.HasLine a.ai → ¬ b.HasLine a.human → a.minimax b d mx = 10) ∧
    (∀ (b : Board) (d : Nat) (mx : Bool),
        b.HasLine a.human → ¬ b.HasLine a.ai → a.minimax b d mx = -10) ∧
    (∀ (b : Board) (d : Nat) (mx : Bool),
        b.isFull = true → (∀ p, p ≠ Cell.Empty → ¬ b.HasLine p) →
        a.minimax b d mx = 0) ∧
    (∀ (b : Board) (d₁ d₂ : Nat) (mx : Bool),
        a.minimax b d₁ mx = a.minimax b d₂ mx) ∧
    (∀ (b : Board) (d : Nat), b.checkWinner = none → b.isFull = false →
        (∃ m ∈ b.availableMoves,
            a.minimax b d true = a.minimax (b.place m a.ai) (d + 1) false) ∧
        (∀ m ∈ b.availableMoves,
            a.minimax (b.place m a.ai) (d + 1) false ≤ a.minimax b d true)) ∧
    (∀ (b : Board) (d : Nat), b.checkWinner = none → b.isFull = false →
        (∃ m ∈ b.availableMoves,
            a.minimax b d false = a.minimax (b.place m a.human) (d + 1) true) ∧
        (∀ m ∈ b.availableMoves,
            a.minimax b d false ≤ a.minimax (b.place m a.human) (d + 1) true)) := by
  refine ⟨?_, ?_, ?_, ?_, ?_, ?_⟩
  · intro b d mx hA hH
    have hw : b.checkWinner = some a.ai := by
      apply checkWinner_of_unique_line hai hA
      intro q hq hqa
      rw [cell_eq_of_ne q a.ai a.human hai hhu hd hq hqa]
      exact hH
    show minimaxAux a.ai a.human 9 b d mx = 10
    rw [minimaxAux_terminal_win a.ai a.human 9 b d mx hw]
    unfold scoreForWinner
    rw [if_pos rfl]
  · intro b d mx hH hA
    have hw : b.checkWinner = some a.human := by
      apply checkWinner_of_unique_line hhu hH
      intro q hq hqh
      rw [cell_eq_of_ne q a.human a.ai hhu hai (Ne.symm hd) hq hqh]
      exact hA
    show minimaxAux a.ai a.human 9 b d mx = -10
    rw [minimaxAux_terminal_win a.ai a.human 9 b d mx hw]
    unfold scoreForWinner
    rw [if_neg (Ne.symm hd), if_pos rfl]
  · intro b d mx hfull hnl
    have hw : b.checkWinner = none := checkWinner_eq_none_iff.mpr hnl
    exact minimaxAux_terminal_full a.ai a.human 9 b d mx hw hfull
  · intro b d₁ d₂ mx
    exact minimaxAux_fuel_depth_irrel a.ai a.human hai hhu 9 9 b d₁ d₂ mx
      (emptyCount_le b) (emptyCount_le b)
  · intro b d hw hf
    have h8 : minimaxAux a.ai a.human 9 b d true =
        b.availableMoves.foldl
          (fun best m => max best (minimaxAux a.ai a.human 8 (b.place m a.ai) (d + 1) false))
          (-2147483648) := minimaxAux_succ_max a.ai a.human 8 b d hw hf
    have h9 : minimaxAux a.ai a.human 9 b d true =
        b.availableMoves.foldl
          (fun best m => max best (minimaxAux a.ai a.human 9 (b.place m a.ai) (d + 1) false))
          (-2147483648) := by
      rw [h8]
      apply foldl_congr_mem
      intro s m hm
      have hc := emptyCount_place hm hai
      have hb := emptyCount_le b
      rw [minimaxAux_fuel_depth_irrel a.ai a.human hai hhu 8 9 (b.place m a.ai)
          (d + 1) (d + 1) false (by omega) (by omega)]
    obtain ⟨m0, hm0⟩ := List.exists_mem_of_ne_nil _ (availableMoves_ne_nil hf)
    constructor
    · rcases foldl_maxf_cases
          (fun m => minimaxAux a.ai a.human 9 (b.place m a.ai) (d + 1) false)
          b.availableMoves (-2147483648) with hc | ⟨x, hx, hcx⟩
      · exfalso
        have h1 := foldl_maxf_ge
          (fun m => minimaxAux a.ai a.human 9 (b.place m a.ai) (d + 1) false)
          b.availableMoves (-2147483648) m0 hm0
        have h2 := (minimaxAux_range a.ai a.human 9 (b.place m0 a.ai) (d + 1) false).1
        rw [hc] at h1
        simp only at h1
        omega
      · refine ⟨x, hx, ?_⟩
        show minimaxAux a.ai a.human 9 b d true =
          minimaxAux a.ai a.human 9 (b.place x a.ai) (d + 1) false
        rw [h9]
        exact hcx
    · intro m hm
      have h1 := foldl_maxf_ge
        (fun m => minimaxAux a.ai a.human 9 (b.place m a.ai) (d + 1) false)
        b.availableMoves (-2147483648) m hm
      show minimaxAux a.ai a.human 9 (b.place m a.ai) (d + 1) false ≤
        minimaxAux a.ai a.human 9 b d true
      rw [h9]
      exact h1
  · intro b d hw hf
    have h8 : minimaxAux a.ai a.human 9 b d false =
        b.availableMoves.foldl
          (fun best m => min best (minimaxAux a.ai a.human 8 (b.place m a.human) (d + 1) true))
          2147483647 := minimaxAux_succ_min a.ai a.human 8 b d hw hf
    have h9 : minimaxAux a.ai a.human 9 b d false =
        b.availableMoves.foldl
          (fun best m => min best (minimaxAux a.ai a.human 9 (b.place m a.human) (d + 1) true))
          2147483647 := by
      rw [h8]
      apply foldl_congr_mem
      intro s m hm
      have hc := emptyCount_place hm hhu
      have hb := emptyCount_le b
      rw [minimaxAux_fuel_depth_irrel a.ai a.human hai hhu 8 9 (b.place m a.human)
          (d + 1) (d + 1) true (by omega) (by omega)]
    obtain ⟨m0, hm0⟩ := List.exists_mem_of_ne_nil _ (availableMoves_ne_nil hf)
    constructor
    · rcases foldl_minf_cases
          (fun m => minimaxAux a.ai a.human 9 (b.place m a.human) (d + 1) true)
          b.availableMoves 2147483647 with hc | ⟨x, hx, hcx⟩
      · exfalso
        have h1 := foldl_minf_le_of_mem
          (fun m => minimaxAux a.ai a.human 9 (b.place m a.human) (d + 1) true)
          b.availableMoves 2147483647 m0 hm0
        have h2 := (minimaxAux_range a.ai a.human 9 (b.place m0 a.human) (d + 1) true).2
        rw [hc] at h1
        simp only at h1
        omega
      · refine ⟨x, hx, ?_⟩
        show minimaxAux a.ai a.human 9 b d false =
          minimaxAux a.ai a.human 9 (b.place x a.human) (d + 1) true
        rw [h9]
        exact hcx
    · intro m hm
      have h1 := foldl_minf_le_of_mem
        (fun m => minimaxAux a.ai a.human 9 (b.place m a.human) (d + 1) true)
        b.availableMoves 2147483647 m hm
      show minimaxAux a.ai a.human 9 b d false ≤
        minimaxAux a.ai a.human 9 (b.place m a.human) (d + 1) true
      rw [h9]
      exact h1

/-- C1 witness: the amended statement evaluated for `AI(O, X)` on a
board where `O` owns the top row and `X` owns no line. -/
theorem C1_witness : AI.minimax ⟨Cell.O, Cell.X⟩ bWin 3 true = 10 :=
  (C1_minimax_spec ⟨Cell.O, Cell.X⟩ (by decide) (by decide) (by decide)).1 bWin 3 true
    (by decide) (by decide)

/-- `findBestMove`'s fold, rewritten through the always-successful
`makeMove` calls on available moves. -/
theorem findBestMove_fold (a : AI) (b : Board) :
    a.findBestMove b =
      (b.availableMoves.foldl
        (fun st m => if moveScore a b m > st.1
          then (moveScore a b m, ((m.1 : Int), (m.2 : Int))) else st)
        ((-2147483648 : Int), ((-1 : Int), (-1 : Int)))).2 := by
  unfold AI.findBestMove
  congr 1
  apply foldl_congr_mem
  intro s m hm
  rw [makeMove_of_mem hm]
  rfl

theorem findBestMove_of_nil (a : AI) (b : Board) (h : b.availableMoves = []) :
    a.findBestMove b = (-1, -1) := by
  unfold AI.findBestMove
  rw [h]
  rfl

/-- On a board with at least one available move, `findBestMove` returns
the first move (in `availableMoves` order) attaining the strict maximum
of `moveScore`. -/
theorem findBestMove_argmax (a : AI) (b : Board) (hne : b.availableMoves ≠ []) :
    ∃ k : Fin b.availableMoves.length,
      a.findBestMove b =
        (((b.availableMoves.get k).1 : Int), ((b.availableMoves.get k).2 : Int)) ∧
      (∀ j : Fin b.availableMoves.length,
          moveScore a b (b.availableMoves.get j) ≤
            moveScore a b (b.availableMoves.get k)) ∧
      (∀ j : Fin b.availableMoves.length, j.val < k.val →
          moveScore a b (b.availableMoves.get j) <
            moveScore a b (b.availableMoves.get k)) := by
  have hgt : ∀ m ∈ b.availableMoves, (-2147483648 : Int) < moveScore a b m := by
    intro m hm
    have h1 := (minimaxAux_range a.ai a.human 9 (b.place m a.ai) 0 false).1
    have h2 : moveScore a b m = minimaxAux a.ai a.human 9 (b.place m a.ai) 0 false := rfl
    rw [h2]
    omega
  obtain ⟨k, heq, hall, hfirst⟩ := foldl_pickBest_argmax (moveScore a b)
    (fun m => ((m.1 : Int), (m.2 : Int))) b.availableMoves
    (-2147483648) ((-1 : Int), (-1 : Int)) hne hgt
  refine ⟨k, ?_, hall, hfirst⟩
  rw [findBestMove_fold, heq]

/-- A non-sentinel result of `findBestMove` is one of the available
(`Empty`, in-range) moves. -/
theorem findBestMove_mem (a : AI) (b : Board) (r c : Int)
    (hfb : a.findBestMove b = (r, c)) (hr : 0 ≤ r) :
    ∃ m ∈ b.availableMoves, r = (m.1 : Int) ∧ c = (m.2 : Int) := by
  by_cases hne : b.availableMoves = []
  · exfalso
    rw [findBestMove_of_nil a b hne] at hfb
    have : (-1 : Int) = r := congrArg Prod.fst hfb
    omega
  · obtain ⟨k, heq, -, -⟩ := findBestMove_argmax a b hne
    rw [hfb] at heq
    obtain ⟨h1, h2⟩ := Prod.mk.injEq .. ▸ heq
    exact ⟨b.availableMoves.get k, List.get_mem _ k.1 k.2, h1, h2⟩

/-! ## Session-level lemmas -/

theorem checkGameState_fields (g : Game) (hov : g.over = false) :
    ((g.checkGameState).over = true ↔
        ((g.board.checkWinner).isSome ∨ g.board.isFull = true)) ∧
    (g.checkGameState).winnerOpt =
      (if (g.checkGameState).over = true then g.board.checkWinner else g.winnerOpt) ∧
    (g.checkGameState).current = g.current ∧
    (g.checkGameState).board = g.board ∧
    (g.checkGameState).mode = g.mode := by
  unfold Game.checkGameState
  cases hw : g.board.checkWinner with
  | some w => simp [hw]
  | none =>
    cases hf : g.board.isFull with
    | true => simp [hw, hf]
    | false => simp [hw, hf, hov]

theorem checkGameState_over_false {g : Game} (h : (g.checkGameState).over = false) :
    g.checkGameState = g ∧ g.board.checkWinner = none ∧ g.board.isFull = false := by
  unfold Game.checkGameState at h ⊢
  cases hw : g.board.checkWinner with
  | some w => rw [hw] at h; simp at h
  | none =>
    rw [hw] at h
    cases hf : g.board.isFull with
    | true => rw [hf] at h; simp at h
    | false => exact ⟨by simp, rfl, rfl⟩

theorem applyMark_fields (g : Game) (i : Fin 9) (p : Cell) (hov : g.over = false) :
    (applyMark g i p).board = ⟨Function.update g.board.cells i p⟩ ∧
    ((applyMark g i p).over = true ↔
      (((applyMark g i p).board.checkWinner).isSome ∨
        (applyMark g i p).board.isFull = true)) ∧
    (applyMark g i p).current =
      (if (applyMark g i p).over = true then g.current else switchTurn g.current) ∧
    (applyMark g i p).winnerOpt =
      (if (applyMark g i p).over = true then (applyMark g i p).board.checkWinner
       else g.winnerOpt) ∧
    (applyMark g i p).mode = g.mode := by
  have hov' : ({ g with board := ⟨Function.update g.board.cells i p⟩ } : Game).over = false :=
    hov
  obtain ⟨hiff, hwn, hcur, hb, hmode⟩ :=
    checkGameState_fields { g with board := ⟨Function.update g.board.cells i p⟩ } hov'
  unfold applyMark
  cases hgo : (Game.checkGameState
      { g with board := ⟨Function.update g.board.cells i p⟩ }).over with
  | true =>
    rw [if_pos hgo]
    rw [hgo] at hiff hwn
    refine ⟨hb, by rw [hb]; exact ⟨fun _ => hiff.mp rfl, fun _ => hgo⟩, ?_, ?_, hmode⟩
    · rw [if_pos hgo, hcur]
    · rw [if_pos hgo, hwn, hb]
      simp
  | false =>
    rw [if_neg (by rw [hgo]; exact Bool.false_ne_true)]
    rw [hgo] at hiff hwn
    constructor
    · exact hb
    constructor
    · show ((Game.checkGameState _).over = true ↔ _)
      rw [hgo, hb]
      constructor
      · intro hcon; exact absurd hcon Bool.false_ne_true
      · intro hor; exact hiff.mpr hor
    constructor
    · show switchTurn _ = _
      rw [hgo, if_neg Bool.false_ne_true, hcur]
    constructor
    · show (Game.checkGameState _).winnerOpt = _
      rw [hwn, hgo, if_neg Bool.false_ne_true, if_neg Bool.false_ne_true]
    · exact hmode

theorem applyMark_inv {g : Game} (_hov : g.over = false) (hwn : g.winnerOpt = none)
    (i : Fin 9) (p : Cell) : GameInv (applyMark g i p) := by
  intro hov'
  unfold applyMark at hov' ⊢
  cases hgo : (Game.checkGameState
      { g with board := ⟨Function.update g.board.cells i p⟩ }).over with
  | true => rw [if_pos hgo] at hov'; exact absurd hov' (by rw [hgo]; exact fun hcon => Bool.noConfusion hcon)
  | false =>
    obtain ⟨hid, hw, hf⟩ := checkGameState_over_false hgo
    rw [if_neg (by rw [hgo]; exact Bool.false_ne_true)]
    rw [hid]
    exact ⟨hw, hf, hwn⟩

theorem playMove_over {g : Game} (h : g.over = true) (r c : Int) :
    g.playMove r c = some (g, false) := by
  unfold Game.playMove
  rw [if_pos h]

theorem playMove_oob {g : Game} (hov : g.over = false) {r c : Int}
    (h : ¬ (0 ≤ r * 3 + c ∧ r * 3 + c < 9)) : g.playMove r c = none := by
  unfold Game.playMove
  rw [if_neg (by rw [hov]; exact Bool.false_ne_true)]
  have hget : g.board.get r c = none := by
    simp only [Board.get, dif_neg h]
  rw [hget]

theorem playMove_occupied {g : Game} (hov : g.over = false) {r c : Int}
    (h : 0 ≤ r * 3 + c ∧ r * 3 + c < 9)
    (hne : g.board.cells ⟨(r * 3 + c).toNat, by omega⟩ ≠ Cell.Empty) :
    g.playMove r c = some (g, false) := by
  unfold Game.playMove
  rw [if_neg (by rw [hov]; exact Bool.false_ne_true)]
  have hget : g.board.get r c = some (g.board.cells ⟨(r * 3 + c).toNat, by omega⟩) := by
    simp only [Board.get, dif_pos h]
  rw [hget]
  simp only
  rw [if_pos hne]

theorem playMove_empty {g : Game} (hov : g.over = false) {r c : Int}
    (h : 0 ≤ r * 3 + c ∧ r * 3 + c < 9)
    (hE : g.board.cells ⟨(r * 3 + c).toNat, by omega⟩ = Cell.Empty) :
    g.playMove r c =
      some (applyMark g ⟨(r * 3 + c).toNat, by omega⟩ g.current, true) := by
  unfold Game.playMove
  rw [if_neg (by rw [hov]; exact Bool.false_ne_true)]
  have hget : g.board.get r c = some (g.board.cells ⟨(r * 3 + c).toNat, by omega⟩) := by
    simp only [Board.get, dif_pos h]
  rw [hget]
  simp only
  rw [if_neg (not_not_intro hE)]
  have hmk : g.board.makeMove r c g.current =
      some (⟨Function.update g.board.cells ⟨(r * 3 + c).toNat, by omega⟩ g.current⟩, true) := by
    simp only [Board.makeMove, dif_pos h]
    rw [if_pos hE]
  rw [hmk]
  rfl

theorem playMove_inv {g g' : Game} {ok : Bool} {r c : Int}
    (hInv : GameInv g) (hp : g.playMove r c = some (g', ok)) : GameInv g' := by
  cases hov : g.over with
  | true =>
    rw [playMove_over hov r c] at hp
    simp only [Option.some_inj, Prod.mk.injEq] at hp
    obtain ⟨rfl, -⟩ := hp
    exact hInv
  | false =>
    by_cases h : 0 ≤ r * 3 + c ∧ r * 3 + c < 9
    · by_cases hE : g.board.cells ⟨(r * 3 + c).toNat, by omega⟩ = Cell.Empty
      · rw [playMove_empty hov h hE] at hp
        simp only [Option.some_inj, Prod.mk.injEq] at hp
        obtain ⟨hg', -⟩ := hp
        rw [← hg']
        exact applyMark_inv hov (hInv hov).2.2 _ _
      · rw [playMove_occupied hov h hE] at hp
        simp only [Option.some_inj, Prod.mk.injEq] at hp
        obtain ⟨rfl, -⟩ := hp
        exact hInv
    · rw [playMove_oob hov h] at hp
      cases hp

theorem aiMove_over {g : Game} (h : g.over = true) : g.aiMove = some g := by
  unfold Game.aiMove
  rw [if_pos h]

theorem aiMove_sentinel {g : Game} (hov : g.over = false) (r c : Int)
    (hfb : AI.findBestMove ⟨Cell.O, Cell.X⟩ g.board = (r, c)) (hr : r < 0) :
    g.aiMove = some g := by
  unfold Game.aiMove
  rw [if_neg (by rw [hov]; exact Bool.false_ne_true)]
  rw [hfb]
  simp only
  rw [if_neg (by omega)]

theorem aiMove_mem {g : Game} (hov : g.over = false) {m : Nat × Nat}
    (hm : m ∈ g.board.availableMoves)
    (hfb : AI.findBestMove ⟨Cell.O, Cell.X⟩ g.board = ((m.1 : Int), (m.2 : Int))) :
    ∃ h9 : m.1 * 3 + m.2 < 9,
      g.aiMove = some (applyMark g ⟨m.1 * 3 + m.2, h9⟩ Cell.O) := by
  obtain ⟨h9, hE⟩ := cell_empty_of_mem hm
  refine ⟨h9, ?_⟩
  unfold Game.aiMove
  rw [if_neg (by rw [hov]; exact Bool.false_ne_true)]
  rw [hfb]
  simp only
  rw [if_pos (Int.natCast_nonneg m.1)]
  rw [makeMove_of_mem hm Cell.O]
  simp only
  rw [place_eq g.board m Cell.O h9]
  rfl

theorem aiMove_inv {g g' : Game} (hInv : GameInv g) (hp : g.aiMove = some g') :
    GameInv g' := by
  cases hov : g.over with
  | true =>
    rw [aiMove_over hov] at hp
    obtain rfl := Option.some_inj.mp hp
    exact hInv
  | false =>
    rcases hfb : AI.findBestMove ⟨Cell.O, Cell.X⟩ g.board with ⟨r, c⟩
    by_cases hr : 0 ≤ r
    · obtain ⟨m, hm, rfl, rfl⟩ := findBestMove_mem _ _ r c hfb hr
      obtain ⟨h9, hp'⟩ := aiMove_mem hov hm hfb
      rw [hp'] at hp
      obtain rfl := Option.some_inj.mp hp
      exact applyMark_inv hov (hInv hov).2.2 _ _
    · rw [aiMove_sentinel hov r c hfb (by omega)] at hp
      obtain rfl := Option.some_inj.mp hp
      exact hInv

/-! ## Claim C2 -/

/-- C2: `findBestMove` iterates exactly the `Empty` cells, in row-major
scan order (the moves are strictly increasing in flattened index), and
returns the first move in that order achieving the strict maximum of
the minimax score (`moveScore`: the move applied with the AI's mark,
then scored from the opponent's minimizing ply), so the result is a
function of the board alone; on a board with no `Empty` cell it returns
the sentinel `(-1, -1)`. -/
theorem C2_findBestMove_spec (a : AI) (b : Board) :
    (∀ m : Nat × Nat, m ∈ b.availableMoves ↔
      ∃ h : m.1 * 3 + m.2 < 9,
        m.1 < 3 ∧ m.2 < 3 ∧ b.cells ⟨m.1 * 3 + m.2, h⟩ = Cell.Empty) ∧
    b.availableMoves.Pairwise (fun m m' => m.1 * 3 + m.2 < m'.1 * 3 + m'.2) ∧
    ((∀ i, b.cells i ≠ Cell.Empty) → a.findBestMove b = (-1, -1)) ∧
    (b.availableMoves ≠ [] →
      ∃ k : Fin b.availableMoves.length,
        a.findBestMove b =
          (((b.availableMoves.get k).1 : Int), ((b.availableMoves.get k).2 : Int)) ∧
        (∀ j : Fin b.availableMoves.length,
            moveScore a b (b.availableMoves.get j) ≤
              moveScore a b (b.availableMoves.get k)) ∧
        (∀ j : Fin b.availableMoves.length, j.val < k.val →
            moveScore a b (b.availableMoves.get j) <
              moveScore a b (b.availableMoves.get k))) := by
  refine ⟨mem_availableMoves_iff b, availableMoves_sorted b, ?_, findBestMove_argmax a b⟩
  intro h
  exact findBestMove_of_nil a b (availableMoves_eq_nil h)

/-- C2 witness: on a full board `findBestMove` returns the sentinel. -/
theorem C2_witness : AI.findBestMove ⟨Cell.O, Cell.X⟩ bFull = (-1, -1) :=
  (C2_findBestMove_spec ⟨Cell.O, Cell.X⟩ bFull).2.2.1 (by decide)

/-! ## Claim C3 -/

/-- C3: on the board `[X,X,Empty, O,O,Empty, Empty,Empty,Empty]` with
`X` as the maximizing (self) player — that is, the search object
`AI(X, O)` — `findBestMove` returns `(0, 2)`, completing `X`'s winning
top row. -/
theorem C3_scenario : AI.findBestMove ⟨Cell.X, Cell.O⟩ bC3 = (0, 2) := by decide

/-! ## Claim C4 -/

/-- C4 counterexample: on the empty board `makeMove(0, 3, X)` succeeds
(returns `true`) and mutates the board, although column 3 lies outside
`[0,3)`: the claimed local `OutOfRange` rejection does not exist in the
code, which flattens the coordinates with no bounds check. -/
theorem C4_counterexample :
    Board.init.makeMove 0 3 Cell.X = some (Board.init.place (0, 3) Cell.X, true) ∧
    Board.init.place (0, 3) Cell.X ≠ Board.init ∧ ¬ ((3 : Int) < 3) :=
  ⟨by decide, by decide, by decide⟩

/-- C4 (amended): `makeMove` checks no bounds.  Whenever the flattened
row-major index `r*3+c` lands inside the 9-slot array, the call
succeeds and marks exactly that flattened cell iff the cell is
currently `Empty` — even for out-of-range coordinates such as
`(0, 3)`, which alias a different cell — and fails with `false` leaving
the board unchanged iff the cell is occupied.  A flattened index
outside the array is an unchecked out-of-bounds access (modelled as
`none`), not a handled `OutOfRange` failure. -/
theorem C4_makeMove_spec (b : Board) (r c : Int) (p : Cell) :
    (∀ h : 0 ≤ r * 3 + c ∧ r * 3 + c < 9,
      (b.cells ⟨(r * 3 + c).toNat, by omega⟩ = Cell.Empty →
        b.makeMove r c p =
          some (⟨Function.update b.cells ⟨(r * 3 + c).toNat, by omega⟩ p⟩, true)) ∧
      (b.cells ⟨(r * 3 + c).toNat, by omega⟩ ≠ Cell.Empty →
        b.makeMove r c p = some (b, false))) ∧
    (¬ (0 ≤ r * 3 + c ∧ r * 3 + c < 9) → b.makeMove r c p = none) := by
  constructor
  · intro h
    constructor
    · intro hE
      simp only [Board.makeMove, dif_pos h]
      rw [if_pos hE]
    · intro hE
      simp only [Board.makeMove, dif_pos h]
      rw [if_neg hE]
  · intro h
    simp only [Board.makeMove, dif_neg h]

/-- C4 witness: the amended statement evaluated at the centre square of
the empty board. -/
theorem C4_witness :
    Board.init.makeMove 1 1 Cell.X =
      some (⟨Function.update Board.init.cells ⟨4, by omega⟩ Cell.X⟩, true) :=
  ((C4_makeMove_spec Board.init 1 1 Cell.X).1 (by decide)).1 (by decide)

/-! ## Claim C7 -/

/-- C7: `checkWinner` checks exactly the 8 lines (3 rows, then 3
columns, then 2 diagonals, the scan order fixed in `lines`) and returns
the occupant of the first complete line in that order; a returned
player is never `Empty` and really owns a complete line, and `none` is
returned exactly when no line is complete. -/
theorem C7_checkWinner_spec (b : Board) :
    b.checkWinner = lines.findSome? (lineOwner b) ∧
    (∀ p, b.checkWinner = some p → p ≠ Cell.Empty ∧ b.HasLine p) ∧
    (b.checkWinner = none ↔ ∀ p, p ≠ Cell.Empty → ¬ b.HasLine p) :=
  ⟨checkWinner_eq_findSome b, fun _ hp => hasLine_of_checkWinner hp,
    checkWinner_eq_none_iff⟩

/-- C7 witness: on the doubly-won board the first matching line in scan
order is `X`'s top row, and the returned player owns a line. -/
theorem C7_witness :
    bothLines.checkWinner = some Cell.X ∧
    Cell.X ≠ Cell.Empty ∧ bothLines.HasLine Cell.X :=
  ⟨by decide, (C7_checkWinner_spec bothLines).2.1 Cell.X (by decide)⟩

/-! ## Claim C8 -/

/-- C8 counterexample: `Game::setMode` only sets the mode flag and does
not restart — with a mark on the board, `setMode` leaves the board (and
hence the whole non-mode state) untouched, while a restart would clear
it.  The implicit restart on a mode toggle lives in the GUI
(`toggleMode`), not in `setMode`. -/
theorem C8_counterexample :
    (gOneMark.setMode Mode.HumanVsHuman).board = gOneMark.board ∧
    gOneMark.board ≠ gOneMark.restart.board ∧
    gOneMark.setMode Mode.HumanVsHuman ≠ gOneMark.restart :=
  ⟨rfl, by decide, by decide⟩

/-- C8 (amended): `restart` clears the board, the terminal flag and the
stored winner and resets the turn to `X`, leaving both score counters
and the mode exactly as they were.  `Game::setMode` itself changes only
the mode flag.  The restart accompanying a mode toggle is performed by
the GUI handler `toggleMode` (`setMode` then `restart`), which
therefore also preserves the scores. -/
theorem C8_restart_spec :
    (∀ g : Game, g.restart =
      { board := Board.init, current := Cell.X, mode := g.mode, over := false,
        winnerOpt := none, scoreX := g.scoreX, scoreO := g.scoreO }) ∧
    (∀ (g : Game) (m : Mode), g.setMode m =
      { board := g.board, current := g.current, mode := m, over := g.over,
        winnerOpt := g.winnerOpt, scoreX := g.scoreX, scoreO := g.scoreO }) ∧
    (∀ g : Game, (toggleMode g).scoreX = g.scoreX ∧ (toggleMode g).scoreO = g.scoreO ∧
      (toggleMode g).board = Board.init ∧ (toggleMode g).over = false ∧
      (toggleMode g).winnerOpt = none ∧ (toggleMode g).current = Cell.X) := by
  refine ⟨fun g => rfl, fun g m => rfl, fun g => ?_⟩
  unfold toggleMode
  split_ifs <;> exact ⟨rfl, rfl, rfl, rfl, rfl, rfl⟩

/-! ## Claim C9 -/

/-- C9: for every board and in-range `Empty` cell, `makeMove` followed
immediately by `undoMove` on the same cell returns exactly the original
board; and `undoMove` writes `Empty` unconditionally — no occupancy
check — on every board. -/
theorem C9_make_undo_spec (b : Board) (r c : Int) (p : Cell)
    (hr : 0 ≤ r ∧ r < 3) (hc : 0 ≤ c ∧ c < 3)
    (hE : b.get r c = some Cell.Empty) :
    (∃ b', b.makeMove r c p = some (b', true) ∧ b'.undoMove r c = some b) ∧
    (∀ b₀ : Board, b₀.undoMove r c =
      some ⟨Function.update b₀.cells ⟨(r * 3 + c).toNat, by omega⟩ Cell.Empty⟩) := by
  obtain ⟨rn, rfl⟩ : ∃ n : Nat, r = (n : Int) := ⟨r.toNat, (Int.toNat_of_nonneg hr.1).symm⟩
  obtain ⟨cn, rfl⟩ : ∃ n : Nat, c = (n : Int) := ⟨c.toNat, (Int.toNat_of_nonneg hc.1).symm⟩
  have hrn : rn < 3 := by exact_mod_cast hr.2
  have hcn : cn < 3 := by exact_mod_cast hc.2
  have h9 : rn * 3 + cn < 9 := by omega
  rw [get_nat b rn cn h9] at hE
  have hE' : b.cells ⟨rn * 3 + cn, h9⟩ = Cell.Empty := Option.some_inj.mp hE
  constructor
  · refine ⟨⟨Function.update b.cells ⟨rn * 3 + cn, h9⟩ p⟩, ?_, ?_⟩
    · rw [makeMove_nat b rn cn p h9, if_pos hE']
    · rw [undoMove_nat _ rn cn h9]
      have hrestore :
          Function.update (Function.update b.cells ⟨rn * 3 + cn, h9⟩ p)
            ⟨rn * 3 + cn, h9⟩ Cell.Empty = b.cells := by
        rw [Function.update_idem, ← hE', Function.update_eq_self]
      rw [hrestore]
  · intro b₀
    rw [undoMove_nat b₀ rn cn h9]
    rfl

/-- C9 witness: the round trip evaluated at the top-left square of the
empty board. -/
theorem C9_witness :
    ∃ b', Board.init.makeMove 0 0 Cell.X = some (b', true) ∧
      b'.undoMove 0 0 = some Board.init :=
  (C9_make_undo_spec Board.init 0 0 Cell.X (by decide) (by decide) (by decide)).1

/-! ## Claim C5 -/

/-- C5 counterexample: out-of-range coordinates are not rejected.  From
the initial session, `playMove(0, 3)` — column 3 outside `[0,3)` —
succeeds (returns `true`) and mutates the session, because the
unchecked flattened read of `cells[0*3+3]` aliases cell `(1, 0)`. -/
theorem C5_counterexample :
    (Game.init.playMove 0 3).map Prod.snd = some true ∧
    Game.init.playMove 0 3 ≠ some (Game.init, false) ∧
    (Game.init.playMove 0 3).map (fun p => p.1.board) ≠ some Game.init.board :=
  ⟨by decide, by decide, by decide⟩

/-- C5 (amended): `playMove` fails — returning `false` with the entire
session state (board, turn, flag, winner, scores) untouched — exactly
when the game is already over or the cell at the unchecked flattened
index `r*3+c` is occupied.  It performs no range validation:
out-of-range coordinates whose flattened index stays inside the array
silently target the aliased cell, and coordinates whose flattened index
leaves the array are an out-of-bounds read (modelled `none`), not a
clean failure.  On success it writes the current player's mark at the
flattened cell, evaluates the terminal condition, stores the winner iff
the move ended the game, and flips the turn marker iff the session is
still running. -/
theorem C5_playMove_spec (g : Game) (r c : Int) :
    (g.over = true → g.playMove r c = some (g, false)) ∧
    (∀ h : 0 ≤ r * 3 + c ∧ r * 3 + c < 9,
      g.over = false →
      (g.board.cells ⟨(r * 3 + c).toNat, by omega⟩ ≠ Cell.Empty →
        g.playMove r c = some (g, false)) ∧
      (g.board.cells ⟨(r * 3 + c).toNat, by omega⟩ = Cell.Empty →
        ∃ g', g.playMove r c = some (g', true) ∧
          g'.board =
            ⟨Function.update g.board.cells ⟨(r * 3 + c).toNat, by omega⟩ g.current⟩ ∧
          (g'.over = true ↔
            ((g'.board.checkWinner).isSome ∨ g'.board.isFull = true)) ∧
          g'.current = (if g'.over = true then g.current else switchTurn g.current) ∧
          g'.winnerOpt =
            (if g'.over = true then g'.board.checkWinner else g.winnerOpt) ∧
          g'.mode = g.mode)) ∧
    (g.over = false → ¬ (0 ≤ r * 3 + c ∧ r * 3 + c < 9) → g.playMove r c = none) := by
  refine ⟨fun hov => playMove_over hov r c, ?_, fun hov h => playMove_oob hov h⟩
  intro h hov
  refine ⟨fun hne => playMove_occupied hov h hne, fun hE => ?_⟩
  obtain ⟨hb, hiff, hcur, hwn, hmode⟩ :=
    applyMark_fields g ⟨(r * 3 + c).toNat, by omega⟩ g.current hov
  exact ⟨applyMark g ⟨(r * 3 + c).toNat, by omega⟩ g.current, playMove_empty hov h hE,
    hb, hiff, hcur, hwn, hmode⟩

/-- C5 witness: rejection with untouched state on a session that is
already over. -/
theorem C5_witness : gOver.playMove 0 0 = some (gOver, false) :=
  (C5_playMove_spec gOver 0 0).1 rfl

/-! ## Claim C6 -/

/-- C6 counterexample: `aiMove` does not check whose turn it is.  In
`gMid` the turn marker says it is `X`'s (the human's) turn and the game
is not over; `aiMove` nevertheless acts and changes the session,
placing `O`. -/
theorem C6_counterexample :
    gMid.current = Cell.X ∧ gMid.over = false ∧
    (gMid.aiMove).isSome ∧ gMid.aiMove ≠ some gMid :=
  ⟨rfl, rfl, by decide, by decide⟩

/-- C6 (amended): `aiMove` acts whenever the session is not over —
regardless of whose turn it is — and always places `Cell::O` (the fixed
AI mark), not the current player's mark; it is a no-op (state
unchanged) when `findBestMove` reports the sentinel `r = -1`; and when
it genuinely is `O`'s turn it behaves exactly as `playMove` at the
returned move, including the terminal check and the turn flip. -/
theorem C6_aiMove_spec (g : Game) :
    (g.over = true → g.aiMove = some g) ∧
    (∀ r c : Int, g.over = false →
      AI.findBestMove ⟨Cell.O, Cell.X⟩ g.board = (r, c) → r < 0 →
      g.aiMove = some g) ∧
    (∀ r c : Int, g.over = false →
      AI.findBestMove ⟨Cell.O, Cell.X⟩ g.board = (r, c) → 0 ≤ r →
      ∃ h : 0 ≤ r * 3 + c ∧ r * 3 + c < 9,
        ∃ g', g.aiMove = some g' ∧
          g'.board =
            ⟨Function.update g.board.cells ⟨(r * 3 + c).toNat, by omega⟩ Cell.O⟩ ∧
          (g'.over = true ↔
            ((g'.board.checkWinner).isSome ∨ g'.board.isFull = true)) ∧
          g'.current = (if g'.over = true then g.current else switchTurn g.current)) ∧
    (∀ r c : Int, g.over = false → g.current = Cell.O →
      AI.findBestMove ⟨Cell.O, Cell.X⟩ g.board = (r, c) → 0 ≤ r →
      g.aiMove = (g.playMove r c).map Prod.fst) := by
  refine ⟨fun hov => aiMove_over hov,
    fun r c hov hfb hr => aiMove_sentinel hov r c hfb hr, ?_, ?_⟩
  · intro r c hov hfb hr
    obtain ⟨m, hm, rfl, rfl⟩ := findBestMove_mem _ _ r c hfb hr
    obtain ⟨h9, hp'⟩ := aiMove_mem hov hm hfb
    have h : (0 : Int) ≤ (m.1 : Int) * 3 + (m.2 : Int) ∧
        (m.1 : Int) * 3 + (m.2 : Int) < 9 := by
      constructor <;> omega
    refine ⟨h, applyMark g ⟨m.1 * 3 + m.2, h9⟩ Cell.O, hp', ?_⟩
    obtain ⟨hb, hiff, hcur, -, -⟩ := applyMark_fields g ⟨m.1 * 3 + m.2, h9⟩ Cell.O hov
    exact ⟨hb, hiff, hcur⟩
  · intro r c hov hcur hfb hr
    obtain ⟨m, hm, rfl, rfl⟩ := findBestMove_mem _ _ r c hfb hr
    obtain ⟨h9, hp'⟩ := aiMove_mem hov hm hfb
    obtain ⟨h9', hE⟩ := cell_empty_of_mem hm
    have h : (0 : Int) ≤ (m.1 : Int) * 3 + (m.2 : Int) ∧
        (m.1 : Int) * 3 + (m.2 : Int) < 9 := by
      constructor <;> omega
    rw [hp', playMove_empty hov h (by exact hE), hcur]
    rfl

/-- C6 witness: `aiMove` is a no-op on a session that is over. -/
theorem C6_witness : gOver.aiMove = some gOver :=
  (C6_aiMove_spec gOver).1 rfl

/-! ## Claim C10 -/

/-- C10: in every session state reachable from the initial state by
`playMove` calls with in-range arguments, `aiMove` calls, and
`restart`: while the terminal flag is down the board has no complete
line, the board is not full, and no winner is stored; conversely a
stored winner forces the terminal flag. -/
theorem C10_reachable_invariant (g : Game) (h : Reachable g) :
    (g.over = false →
      (∀ p, p ≠ Cell.Empty → ¬ g.board.HasLine p) ∧
      g.board.isFull = false ∧ g.winnerOpt = none) ∧
    (∀ w, g.winnerOpt = some w → g.over = true) := by
  have hInv : GameInv g := by
    induction h with
    | init => intro _; exact ⟨rfl, rfl, rfl⟩
    | play g0 g' ok r c hre hr1 hr2 hc1 hc2 hp ih => exact playMove_inv ih hp
    | ai g0 g' hre hp ih => exact aiMove_inv ih hp
    | restart g0 hre ih => intro _; exact ⟨rfl, rfl, rfl⟩
  constructor
  · intro hov
    obtain ⟨hw, hf, hwn⟩ := hInv hov
    exact ⟨checkWinner_eq_none_iff.mp hw, hf, hwn⟩
  · intro w hw
    cases hov : g.over with
    | true => rfl
    | false =>
      have hnone := (hInv hov).2.2
      rw [hw] at hnone
      cases hnone

/-- C10 witness: the invariant evaluated at the initial state. -/
theorem C10_witness :
    Game.init.board.isFull = false ∧ Game.init.winnerOpt = none :=
  ⟨((C10_reachable_invariant Game.init Reachable.init).1 rfl).2.1,
   ((C10_reachable_invariant Game.init Reachable.init).1 rfl).2.2⟩

end TTT
